import Mathlib

set_option autoImplicit false

/-!
Shallow embedding of the mesh-ingestion core of the Splender repository
(`src/loader.cpp`): the OBJ text scanner, face fan-triangulator, index
resolver, vertex welder and progress reporter of
`load_obj_simple_internal` (lines 218-360), plus the `Loader` import
state machine (`requestImportAsync` / `maybeFinishImport`, lines 72-107).

Modelling conventions:
* 3D float components are modelled as rationals; the claims under study
  involve only copying and comparing exactly representable values
  (0, 1, coordinates read from the file), never float rounding.
* A parsed input file is a list of classified lines.  Each `v`/`vn`
  line carries the maximal prefix of its numeric fields that the C++
  stream extraction (`ss >> p.x >> p.y >> p.z`) parses successfully;
  per C++11 `num_get` semantics a failed extraction writes 0, which
  `readVec3` reproduces with `List.getD _ _ 0`.  Each face token is
  carried as the result of the `strtol` scanning of lines 266-285:
  `vi = none` models `endptr == s` (token skipped by `continue`), and
  `ni` is the parsed normal index, 0 when absent or malformed.
* The two parallel index arrays `pos_idx` / `norm_idx` are always
  pushed in lockstep (three corners per emitted triangle, lines
  311-317) and read back pairwise at lines 343-344, so they are fused
  into a single list of corner pairs.
* `std::unordered_map<Key, unsigned>` keyed by `(int p, int n)` with the
  welder's insert-only usage is modelled by an association list with
  lookup by key equality.
* File-open failure (lines 228-232) is modelled by passing `none`
  instead of a parsed file; it is the only failure path of the parser.
-/

namespace Splender

/-- One 3D vector; components are exact rationals standing for floats. -/
structure Vec3 where
  x : ℚ
  y : ℚ
  z : ℚ
deriving DecidableEq, Repr

/-- Result of scanning one face token (lines 266-285 of loader.cpp):
`vi` is the leading position index, `none` when `strtol` consumed
nothing (`endptr == s`, the token is skipped); `ni` is the normal index
parsed after `//` or after the second `/`, left at 0 when absent. -/
structure FaceTok where
  vi : Option Int
  ni : Int
deriving DecidableEq, Repr

/-- One classified input line of an OBJ file, as the scanner of lines
250-259 sees it: a `v` or `vn` line carries its successfully extracted
numeric fields, a face line carries its scanned tokens, and every other
line is ignored. -/
inductive ObjLine where
  | v (coords : List ℚ)
  | vn (coords : List ℚ)
  | f (toks : List FaceTok)
  | other
deriving DecidableEq, Repr

/-- Extraction of up to three numeric fields into a vector (lines
254/257): per C++11 stream semantics a missing or failed field leaves
the component 0. -/
def readVec3 (coords : List ℚ) : Vec3 :=
  ⟨coords.getD 0 0, coords.getD 1 0, coords.getD 2 0⟩

/-- The index resolver of lines 287-291: 1-based positive indices
become 0-based, negative indices are relative to the end of the pool
at the time the face line is read, and 0 maps to the sentinel -1. -/
def convert_index (idx : Int) (array_size : Nat) : Int :=
  if idx > 0 then idx - 1
  else if idx < 0 then (array_size : Int) + idx
  else -1

/-- The clamp applied when storing a resolved reference into the face's
reference list (lines 296-297): any negative resolution becomes -1. -/
def clampRef (i : Int) : Int :=
  if i ≥ 0 then i else -1

/-- Resolution of a face line's tokens against the pools' current sizes
(the body of the `while (ss >> vert)` loop, lines 266-298): tokens whose
leading component did not parse are dropped, the rest yield one
(position reference, normal reference) pair. -/
def faceRefs (toks : List FaceTok) (nPos nNorm : Nat) : List (Int × Int) :=
  toks.filterMap fun t =>
    match t.vi with
    | none => none
    | some vi => some (clampRef (convert_index vi nPos), clampRef (convert_index t.ni nNorm))

/-- The conversion applied when a reference is pushed into the corner
stream (lines 311-317): nonnegative values pass through, the sentinel
-1 becomes 0. -/
def toU (i : Int) : Nat :=
  if i ≥ 0 then i.toNat else 0

/-- One emitted corner, as the pair pushed into `pos_idx`/`norm_idx`. -/
def cornerOf (r : Int × Int) : Nat × Nat :=
  (toU r.1, toU r.2)

/-- Fan triangulation of one face's reference list (lines 300-318): a
face with fewer than 3 references is skipped; otherwise for each
`i = 2 .. N-1` the corners at positions 0, i-1 and i are emitted. -/
def fanEmit (refs : List (Int × Int)) : List (Nat × Nat) :=
  if refs.length < 3 then []
  else
    ((List.range refs.length).drop 2).flatMap fun i =>
      [cornerOf (refs.getD 0 (-1, -1)),
       cornerOf (refs.getD (i - 1) (-1, -1)),
       cornerOf (refs.getD i (-1, -1))]

/-- Scanner state accumulated over the read loop of lines 250-328:
the raw pools `temp_pos` / `temp_norm` and the emitted corner stream
(the fused `pos_idx` / `norm_idx` arrays). -/
structure ParseState where
  temp_pos : List Vec3
  temp_norm : List Vec3
  corners : List (Nat × Nat)
deriving DecidableEq, Repr

/-- Processing of one classified line (lines 253-320). -/
def stepLine (st : ParseState) (l : ObjLine) : ParseState :=
  match l with
  | .v coords => { st with temp_pos := st.temp_pos ++ [readVec3 coords] }
  | .vn coords => { st with temp_norm := st.temp_norm ++ [readVec3 coords] }
  | .f toks =>
      { st with corners :=
          st.corners ++ fanEmit (faceRefs toks st.temp_pos.length st.temp_norm.length) }
  | .other => st

/-- The whole read loop, starting from empty pools. -/
def parseLines (lines : List ObjLine) : ParseState :=
  lines.foldl stepLine ⟨[], [], []⟩

/-- Welder state: the key map and the three output arrays of lines
330-356. -/
structure WeldState where
  map : List ((Nat × Nat) × Nat)
  out_positions : List Vec3
  out_normals : List Vec3
  out_indices : List Nat
deriving DecidableEq, Repr

/-- Key lookup in the welder's map, by key equality. -/
def lookupKey (m : List ((Nat × Nat) × Nat)) (k : Nat × Nat) : Option Nat :=
  match m with
  | [] => none
  | (k0, v) :: rest => if k = k0 then some v else lookupKey rest k

/-- The position copied for a newly created output vertex (line 351):
the pooled position if the key's position index is in range, else the
zero vector. -/
def posOf (tp : List Vec3) (k : Nat × Nat) : Vec3 :=
  if k.1 < tp.length then tp.getD k.1 ⟨0, 0, 0⟩ else ⟨0, 0, 0⟩

/-- The normal copied for a newly created output vertex (lines 352-353):
the pooled normal if the pool is nonempty and the key's normal index is
in range, else the default normal (0,0,1). -/
def normOf (tn : List Vec3) (k : Nat × Nat) : Vec3 :=
  if tn.length ≠ 0 ∧ k.2 < tn.length then tn.getD k.2 ⟨0, 0, 1⟩ else ⟨0, 0, 1⟩

/-- One welding step (lines 343-356): a seen key reuses its output
index, a new key appends a fresh vertex and records the mapping. -/
def weldStep (tp tn : List Vec3) (st : WeldState) (k : Nat × Nat) : WeldState :=
  match lookupKey st.map k with
  | some j => { st with out_indices := st.out_indices ++ [j] }
  | none =>
      let newIndex := st.out_positions.length
      { map := (k, newIndex) :: st.map
        out_positions := st.out_positions ++ [posOf tp k]
        out_normals := st.out_normals ++ [normOf tn k]
        out_indices := st.out_indices ++ [newIndex] }

/-- The whole welding loop over the corner stream. -/
def weld (tp tn : List Vec3) (corners : List (Nat × Nat)) : WeldState :=
  corners.foldl (weldStep tp tn) ⟨[], [], [], []⟩

/-- The output artifact: positions, index-aligned normals and triangle
indices. -/
structure MeshBuffers where
  positions : List Vec3
  normals : List Vec3
  indices : List Nat
deriving DecidableEq, Repr

/-- A parsed input file: its classified lines, each with the byte
length `std::getline` reports for it, and the total byte size measured
at lines 234-236. -/
structure ObjFile where
  lines : List (ObjLine × Nat)
  fileBytes : Nat
deriving DecidableEq, Repr

/-- The classified-line stream of a file. -/
def fileLines (f : ObjFile) : List ObjLine :=
  f.lines.map Prod.fst

/-- The scanner state a file's line stream produces. -/
def parseFile (f : ObjFile) : ParseState :=
  parseLines (fileLines f)

/-- The vectors the `v` lines of a stream store, in order. -/
def vLineVecs (ls : List ObjLine) : List Vec3 :=
  ls.filterMap fun l =>
    match l with
    | .v c => some (readVec3 c)
    | _ => none

/-- The vectors the `vn` lines of a stream store, in order. -/
def vnLineVecs (ls : List ObjLine) : List Vec3 :=
  ls.filterMap fun l =>
    match l with
    | .vn c => some (readVec3 c)
    | _ => none

/-- The full OBJ parse (`load_obj_simple_internal`, lines 218-360).
`none` models a file that cannot be opened (lines 228-232): the
function returns failure there before touching the output buffers, so
the caller's previous buffers survive unchanged.  Every opened file
parses successfully: the scan is permissive and the welder total. -/
def load_obj_simple_internal (input : Option ObjFile) (prev : MeshBuffers) :
    Bool × MeshBuffers :=
  match input with
  | none => (false, prev)
  | some f =>
      let st := parseLines (fileLines f)
      let w := weld st.temp_pos st.temp_norm st.corners
      (true, ⟨w.out_positions, w.out_normals, w.out_indices⟩)

/-- Count of face tokens surviving the `strtol` scan (those with a
parsed leading component): the length of the face's reference list. -/
def liveToks (toks : List FaceTok) : Nat :=
  (toks.filter fun t => t.vi.isSome).length

/-- Triangles one face line contributes (lines 300-318). -/
def faceLineTris (toks : List FaceTok) : Nat :=
  if liveToks toks < 3 then 0 else liveToks toks - 2

/-- Total triangles the parse of a line stream emits. -/
def totalTris (lines : List ObjLine) : Nat :=
  (lines.map fun l =>
    match l with
    | .f toks => faceLineTris toks
    | _ => 0).sum

/-- The fractional progress value computed at line 324: bytes seen over
total bytes clamped to 1, or 0 when the total size is unknown. -/
def progressValue (fileBytes bytesSeen : Nat) : ℚ :=
  if 0 < fileBytes then min 1 ((bytesSeen : ℚ) / (fileBytes : ℚ)) else 0

/-- One loop iteration of the progress reporter (lines 322-327): the
state is (bytesSeen, lastProgressUpdateBytes, published values so far)
and `sz` is the byte length of the line just consumed.  A value is
published only when at least 4096 bytes passed since the last update. -/
def progStep (fileBytes : Nat) (st : Nat × Nat × List ℚ) (sz : Nat) :
    Nat × Nat × List ℚ :=
  let bytesSeen := st.1 + sz + 1
  if 4096 ≤ bytesSeen - st.2.1 then
    (bytesSeen, bytesSeen, st.2.2 ++ [progressValue fileBytes bytesSeen])
  else
    (bytesSeen, st.2.1, st.2.2)

/-- The complete sequence of values published to the progress cell over
one successful parse: the initial 0.0 of line 243, the in-loop
publishes of lines 322-327, and the final 1.0 of line 358. -/
def progressPublishes (f : ObjFile) : List ℚ :=
  ((f.lines.map Prod.snd).foldl (progStep f.fileBytes) (0, 0, [0])).2.2 ++ [1]

/-- The per-import state triple allocated by `requestImportAsync`
(lines 73-78): the import buffers and the ready/failed/progress cells. -/
structure ImportSlot where
  positions : List Vec3
  normals : List Vec3
  indices : List Nat
  ready : Bool
  failed : Bool
  progress : ℚ
deriving DecidableEq, Repr

/-- The observable `Loader` state: the published buffers and flags, and
the import slot when an import is in flight (`none` models null import
shared pointers). -/
structure LoaderState where
  positions_ptr : List Vec3
  normals_ptr : List Vec3
  indices_ptr : List Nat
  modelReady : Bool
  modelLoadFailed : Bool
  loadProgress : ℚ
  importSlot : Option ImportSlot
deriving DecidableEq, Repr

/-- `Loader::requestImportAsync` (lines 72-78): fresh empty import
buffers, ready and failed cleared, progress zeroed.  The asynchronous
body is modelled separately by `importWorkerFinish`. -/
def requestImportAsync (st : LoaderState) : LoaderState :=
  { st with importSlot := some ⟨[], [], [], false, false, 0⟩ }

/-- Completion of the background import worker (lines 81-85): it runs
the parse into the slot's buffers and then sets exactly one of the two
flags — `failed` when the parse returned false, `ready` otherwise.  On
success the parser leaves the slot's progress at 1.0 (line 358); on
open failure it returns before writing anything. -/
def importWorkerFinish (input : Option ObjFile) (st : LoaderState) : LoaderState :=
  match st.importSlot with
  | none => st
  | some slot =>
      let r := load_obj_simple_internal input ⟨slot.positions, slot.normals, slot.indices⟩
      let slot' : ImportSlot :=
        { positions := r.2.positions
          normals := r.2.normals
          indices := r.2.indices
          progress := if r.1 then 1 else slot.progress
          failed := if r.1 then slot.failed else true
          ready := if r.1 then true else slot.ready }
      { st with importSlot := some slot' }

/-- `Loader::maybeFinishImport` (lines 88-107): acts only when the
slot for the import exists and its ready flag is set; a set failed
flag only logs, otherwise the import buffers are published. -/
def maybeFinishImport (st : LoaderState) : Bool × LoaderState :=
  match st.importSlot with
  | none => (false, st)
  | some slot =>
      if slot.ready then
        if slot.failed then
          (true, { st with importSlot := none })
        else
          (true, { st with
            positions_ptr := slot.positions
            normals_ptr := slot.normals
            indices_ptr := slot.indices
            modelReady := true
            modelLoadFailed := false
            loadProgress := slot.progress
            importSlot := none })
      else (false, st)

/-- Repeated application of `maybeFinishImport`, keeping only the
state: the foreground polls the function once per frame. -/
def pollImport (n : Nat) (st : LoaderState) : LoaderState :=
  match n with
  | 0 => st
  | m + 1 => pollImport m (maybeFinishImport st).2

/-- Index of the first occurrence of a key in a list (the list's length
when absent): the output index an insert-only map assigns. -/
def posIn (l : List (Nat × Nat)) (k : Nat × Nat) : Nat :=
  match l with
  | [] => 0
  | a :: rest => if k = a then 0 else posIn rest k + 1

/-- Appending a key to a first-occurrence list if it is new. -/
def dkInsert (acc : List (Nat × Nat)) (k : Nat × Nat) : List (Nat × Nat) :=
  if k ∈ acc then acc else acc ++ [k]

/-- The distinct keys of the corner stream, in order of first
occurrence: the order in which the welder creates output vertices. -/
def distinctCorners (corners : List (Nat × Nat)) : List (Nat × Nat) :=
  corners.foldl dkInsert []

/-- The spec's unit-square scenario: four `v` lines and the face
`f 1 2 3 4`. -/
def squareFile : ObjFile :=
  ⟨[(ObjLine.v [0, 0, 0], 7), (ObjLine.v [1, 0, 0], 7),
    (ObjLine.v [1, 1, 0], 7), (ObjLine.v [0, 1, 0], 7),
    (ObjLine.f [⟨some 1, 0⟩, ⟨some 2, 0⟩, ⟨some 3, 0⟩, ⟨some 4, 0⟩], 9)], 44⟩

/-- A file with one `vn` line and a face whose corners carry no normal
reference at all. -/
def oneNormFile : ObjFile :=
  ⟨[(ObjLine.v [0, 0, 0], 7), (ObjLine.v [1, 0, 0], 7), (ObjLine.v [0, 1, 0], 7),
    (ObjLine.vn [1, 0, 0], 8),
    (ObjLine.f [⟨some 1, 0⟩, ⟨some 2, 0⟩, ⟨some 3, 0⟩], 7)], 43⟩

/-- The spec's out-of-range scenario: a single `v` line and a face
whose third corner references position 5. -/
def oneVertexFile : ObjFile :=
  ⟨[(ObjLine.v [1, 2, 3], 7),
    (ObjLine.f [⟨some 1, 0⟩, ⟨some 2, 0⟩, ⟨some 5, 0⟩], 7)], 20⟩

/-- An empty input file. -/
def emptyFile : ObjFile := ⟨[], 0⟩

/-- A sample previously held output, used to observe that failures do
not disturb the caller's buffers. -/
def prevSample : MeshBuffers := ⟨[⟨9, 9, 9⟩], [⟨0, 0, 1⟩], [0]⟩

/-- A sample published loader state with a mesh already on display. -/
def loaderSample : LoaderState := ⟨[⟨9, 9, 9⟩], [⟨0, 0, 1⟩], [0], true, false, 1, none⟩

/-! Lemmas about first-occurrence indices and the dedup fold. -/

theorem posIn_nil (k : Nat × Nat) : posIn [] k = 0 := rfl

theorem posIn_cons (a k : Nat × Nat) (rest : List (Nat × Nat)) :
    posIn (a :: rest) k = if k = a then 0 else posIn rest k + 1 := rfl

theorem posIn_append_of_mem {l1 : List (Nat × Nat)} (l2 : List (Nat × Nat))
    {k : Nat × Nat} (h : k ∈ l1) : posIn (l1 ++ l2) k = posIn l1 k := by
  induction l1 with
  | nil => cases h
  | cons a rest ih =>
      rw [List.cons_append, posIn_cons, posIn_cons]
      by_cases hk : k = a
      · simp [hk]
      · rcases List.mem_cons.mp h with h' | h'
        · exact absurd h' hk
        · rw [if_neg hk, if_neg hk, ih h']

theorem posIn_append_of_not_mem {l1 : List (Nat × Nat)} (l2 : List (Nat × Nat))
    {k : Nat × Nat} (h : k ∉ l1) : posIn (l1 ++ l2) k = l1.length + posIn l2 k := by
  induction l1 with
  | nil => simp [posIn]
  | cons a rest ih =>
      have hka : k ≠ a := fun he => h (he ▸ List.mem_cons_self a rest)
      have hkr : k ∉ rest := fun hm => h (List.mem_cons_of_mem a hm)
      rw [List.cons_append, posIn_cons, if_neg hka, ih hkr, List.length_cons]
      omega

theorem posIn_lt_length {l : List (Nat × Nat)} {k : Nat × Nat} (h : k ∈ l) :
    posIn l k < l.length := by
  induction l with
  | nil => cases h
  | cons a rest ih =>
      rw [posIn_cons, List.length_cons]
      by_cases hk : k = a
      · simp [hk]
      · rcases List.mem_cons.mp h with h' | h'
        · exact absurd h' hk
        · simpa [hk] using ih h'

theorem getD_posIn {l : List (Nat × Nat)} {k : Nat × Nat} (h : k ∈ l)
    (d : Nat × Nat) : l.getD (posIn l k) d = k := by
  induction l with
  | nil => cases h
  | cons a rest ih =>
      by_cases hk : k = a
      · rw [posIn_cons, if_pos hk, List.getD_cons_zero, hk]
      · rcases List.mem_cons.mp h with h' | h'
        · exact absurd h' hk
        · rw [posIn_cons, if_neg hk, List.getD_cons_succ, ih h']

theorem foldl_dkInsert_grows (l : List (Nat × Nat)) (acc : List (Nat × Nat)) :
    ∃ sfx, List.foldl dkInsert acc l = acc ++ sfx := by
  induction l generalizing acc with
  | nil => exact ⟨[], by simp⟩
  | cons a l ih =>
      rcases ih (dkInsert acc a) with ⟨sfx, hsfx⟩
      by_cases ha : a ∈ acc
      · refine ⟨sfx, ?_⟩
        rw [List.foldl_cons, hsfx, show dkInsert acc a = acc from by simp [dkInsert, ha]]
      · refine ⟨[a] ++ sfx, ?_⟩
        rw [List.foldl_cons, hsfx,
          show dkInsert acc a = acc ++ [a] from by simp [dkInsert, ha], List.append_assoc]

theorem mem_foldl_dkInsert (l : List (Nat × Nat)) (acc : List (Nat × Nat))
    (k : Nat × Nat) : k ∈ List.foldl dkInsert acc l ↔ k ∈ acc ∨ k ∈ l := by
  induction l generalizing acc with
  | nil => simp
  | cons a l ih =>
      simp only [List.foldl_cons, ih, List.mem_cons]
      unfold dkInsert
      by_cases ha : a ∈ acc
      · simp only [if_pos ha]
        constructor
        · rintro (h | h)
          · exact Or.inl h
          · exact Or.inr (Or.inr h)
        · rintro (h | h | h)
          · exact Or.inl h
          · exact Or.inl (h ▸ ha)
          · exact Or.inr h
      · simp only [if_neg ha, List.mem_append, List.mem_singleton]
        tauto

theorem nodup_foldl_dkInsert (l : List (Nat × Nat)) {acc : List (Nat × Nat)}
    (h : acc.Nodup) : (List.foldl dkInsert acc l).Nodup := by
  induction l generalizing acc with
  | nil => exact h
  | cons a l ih =>
      simp only [List.foldl_cons]
      refine ih ?_
      unfold dkInsert
      by_cases ha : a ∈ acc
      · simpa [ha] using h
      · simp only [if_neg ha]
        refine List.Nodup.append h (List.nodup_singleton a) ?_
        intro x hx hx2
        rw [List.mem_singleton] at hx2
        exact ha (hx2 ▸ hx)

/-! Functional characterization of the vertex welder. -/

theorem lookupKey_nil (k : Nat × Nat) : lookupKey [] k = none := rfl

theorem lookupKey_cons (k0 k : Nat × Nat) (v : Nat) (rest : List ((Nat × Nat) × Nat)) :
    lookupKey ((k0, v) :: rest) k = if k = k0 then some v else lookupKey rest k := rfl

theorem weld_fold_spec (tp tn : List Vec3) (rest : List (Nat × Nat)) :
    ∀ (st : WeldState) (acc : List (Nat × Nat)),
    acc.Nodup →
    st.out_positions = acc.map (posOf tp) →
    st.out_normals = acc.map (normOf tn) →
    (∀ k, lookupKey st.map k = if k ∈ acc then some (posIn acc k) else none) →
    (List.foldl (weldStep tp tn) st rest).out_positions
        = (List.foldl dkInsert acc rest).map (posOf tp)
    ∧ (List.foldl (weldStep tp tn) st rest).out_normals
        = (List.foldl dkInsert acc rest).map (normOf tn)
    ∧ (List.foldl (weldStep tp tn) st rest).out_indices
        = st.out_indices ++ rest.map (fun k => posIn (List.foldl dkInsert acc rest) k) := by
  induction rest with
  | nil =>
      intro st acc _ hpos hnorm _
      exact ⟨hpos, hnorm, by simp⟩
  | cons k0 rest ih =>
      intro st acc hnd hpos hnorm hmap
      by_cases ha : k0 ∈ acc
      · -- seen key: only an index is appended
        have hstep : weldStep tp tn st k0 =
            { st with out_indices := st.out_indices ++ [posIn acc k0] } := by
          simp only [weldStep]
          rw [hmap k0, if_pos ha]
        have hdk : dkInsert acc k0 = acc := by simp [dkInsert, ha]
        rcases ih { st with out_indices := st.out_indices ++ [posIn acc k0] } acc
            hnd hpos hnorm hmap with ⟨hP, hN, hI⟩
        rcases foldl_dkInsert_grows rest acc with ⟨sfx, hsfx⟩
        have hpi : posIn (List.foldl dkInsert acc rest) k0 = posIn acc k0 := by
          rw [hsfx, posIn_append_of_mem _ ha]
        refine ⟨?_, ?_, ?_⟩
        · rw [List.foldl_cons, hstep, List.foldl_cons, hdk, hP]
        · rw [List.foldl_cons, hstep, List.foldl_cons, hdk, hN]
        · rw [List.foldl_cons, hstep, List.foldl_cons, hdk, hI, List.map_cons, hpi]
          simp
      · -- new key: a fresh vertex is created
        have hlen : st.out_positions.length = acc.length := by rw [hpos, List.length_map]
        have hstep : weldStep tp tn st k0 =
            ⟨(k0, st.out_positions.length) :: st.map,
             st.out_positions ++ [posOf tp k0],
             st.out_normals ++ [normOf tn k0],
             st.out_indices ++ [st.out_positions.length]⟩ := by
          simp only [weldStep]
          rw [hmap k0, if_neg ha]
        have hnd' : (acc ++ [k0]).Nodup := by
          refine List.Nodup.append hnd (List.nodup_singleton k0) ?_
          intro x hx hx2
          rw [List.mem_singleton] at hx2
          exact ha (hx2 ▸ hx)
        have hpi0 : posIn (acc ++ [k0]) k0 = acc.length := by
          rw [posIn_append_of_not_mem _ ha, posIn_cons, if_pos rfl]
          omega
        have hmap' : ∀ k, lookupKey ((k0, st.out_positions.length) :: st.map) k =
            if k ∈ acc ++ [k0] then some (posIn (acc ++ [k0]) k) else none := by
          intro k
          rw [lookupKey_cons]
          by_cases hk : k = k0
          · subst hk
            rw [if_pos rfl, if_pos (by simp), hpi0, hlen]
          · rw [if_neg hk, hmap k]
            by_cases hkacc : k ∈ acc
            · rw [if_pos hkacc, if_pos (by simp [hkacc]),
                posIn_append_of_mem _ hkacc]
            · rw [if_neg hkacc, if_neg (by simp [hkacc, hk])]
        rcases ih ⟨(k0, st.out_positions.length) :: st.map,
            st.out_positions ++ [posOf tp k0],
            st.out_normals ++ [normOf tn k0],
            st.out_indices ++ [st.out_positions.length]⟩ (acc ++ [k0])
            hnd' (by simp [hpos]) (by simp [hnorm]) hmap'
          with ⟨hP, hN, hI⟩
        have hdk : dkInsert acc k0 = acc ++ [k0] := by simp [dkInsert, ha]
        rcases foldl_dkInsert_grows rest (acc ++ [k0]) with ⟨sfx, hsfx⟩
        have hpi : posIn (List.foldl dkInsert (acc ++ [k0]) rest) k0 = acc.length := by
          rw [hsfx, List.append_assoc, posIn_append_of_not_mem _ ha,
            List.singleton_append, posIn_cons, if_pos rfl]
          omega
        refine ⟨?_, ?_, ?_⟩
        · rw [List.foldl_cons, hstep, List.foldl_cons, hdk, hP]
        · rw [List.foldl_cons, hstep, List.foldl_cons, hdk, hN]
        · rw [List.foldl_cons, hstep, List.foldl_cons, hdk, hI, List.map_cons, hpi, hlen]
          simp

theorem weld_spec (tp tn : List Vec3) (corners : List (Nat × Nat)) :
    (weld tp tn corners).out_positions = (distinctCorners corners).map (posOf tp)
  ∧ (weld tp tn corners).out_normals = (distinctCorners corners).map (normOf tn)
  ∧ (weld tp tn corners).out_indices
      = corners.map (fun k => posIn (distinctCorners corners) k) := by
  have h := weld_fold_spec tp tn corners ⟨[], [], [], []⟩ []
    List.nodup_nil rfl rfl (fun k => by simp [lookupKey_nil])
  exact ⟨h.1, h.2.1, h.2.2⟩

/-! Structural lemmas about the scan loop. -/

theorem length_fanEmit (refs : List (Int × Int)) :
    (fanEmit refs).length = 3 * (if refs.length < 3 then 0 else refs.length - 2) := by
  unfold fanEmit
  by_cases h : refs.length < 3
  · simp [h]
  · rw [if_neg h, if_neg h]
    have hlen : ∀ (l : List Nat) (g1 g2 g3 : Nat → Nat × Nat),
        (l.flatMap fun i => [g1 i, g2 i, g3 i]).length = 3 * l.length := by
      intro l g1 g2 g3
      induction l with
      | nil => simp
      | cons i l ihl => simp [List.flatMap_cons, ihl]; omega
    rw [hlen, List.length_drop, List.length_range]

theorem length_faceRefs (toks : List FaceTok) (a b : Nat) :
    (faceRefs toks a b).length = liveToks toks := by
  induction toks with
  | nil => rfl
  | cons t ts ih =>
      unfold faceRefs liveToks at *
      cases h : t.vi with
      | none => simpa [List.filterMap_cons, List.filter_cons, h] using ih
      | some v => simpa [List.filterMap_cons, List.filter_cons, h] using ih

theorem totalTris_cons (l : ObjLine) (ls : List ObjLine) :
    totalTris (l :: ls) =
      (match l with | .f toks => faceLineTris toks | _ => 0) + totalTris ls := by
  unfold totalTris
  simp

theorem corners_length_foldl (ls : List ObjLine) :
    ∀ st : ParseState,
      (List.foldl stepLine st ls).corners.length = st.corners.length + 3 * totalTris ls := by
  induction ls with
  | nil => intro st; simp [totalTris]
  | cons l ls ih =>
      intro st
      rw [List.foldl_cons, ih, totalTris_cons]
      cases l with
      | v c => simp [stepLine]
      | vn c => simp [stepLine]
      | f toks =>
          simp only [stepLine, List.length_append, length_fanEmit, length_faceRefs]
          unfold faceLineTris
          omega
      | other => simp [stepLine]

theorem temp_pos_foldl_grows (ls : List ObjLine) :
    ∀ st : ParseState, ∃ sfx, (List.foldl stepLine st ls).temp_pos = st.temp_pos ++ sfx := by
  induction ls with
  | nil => intro st; exact ⟨[], by simp⟩
  | cons l ls ih =>
      intro st
      rcases ih (stepLine st l) with ⟨sfx, hsfx⟩
      rw [List.foldl_cons]
      cases l with
      | v c => exact ⟨[readVec3 c] ++ sfx, by rw [hsfx]; simp [stepLine]⟩
      | vn c => exact ⟨sfx, by rw [hsfx]; rfl⟩
      | f toks => exact ⟨sfx, by rw [hsfx]; rfl⟩
      | other => exact ⟨sfx, by rw [hsfx]; rfl⟩

theorem temp_norm_foldl_no_vn (ls : List ObjLine) :
    ∀ st : ParseState, (∀ c, ObjLine.vn c ∉ ls) →
      (List.foldl stepLine st ls).temp_norm = st.temp_norm := by
  induction ls with
  | nil => intro st _; rfl
  | cons l ls ih =>
      intro st hno
      rw [List.foldl_cons]
      have hls : ∀ c, ObjLine.vn c ∉ ls :=
        fun c hc => hno c (List.mem_cons_of_mem l hc)
      cases l with
      | v c => rw [ih _ hls]; rfl
      | vn c => exact absurd (List.mem_cons_self _ _) (hno c)
      | f toks => rw [ih _ hls]; rfl
      | other => rw [ih _ hls]; rfl

/-! Progress reporter lemmas. -/

theorem progressValue_nonneg (fB b : Nat) : 0 ≤ progressValue fB b := by
  unfold progressValue
  split
  · exact le_min zero_le_one (div_nonneg (Nat.cast_nonneg b) (Nat.cast_nonneg fB))
  · exact le_refl 0

theorem progressValue_le_one (fB b : Nat) : progressValue fB b ≤ 1 := by
  unfold progressValue
  split
  · exact min_le_left _ _
  · exact zero_le_one

theorem progressValue_mono (fB : Nat) {b b' : Nat} (h : b ≤ b') :
    progressValue fB b ≤ progressValue fB b' := by
  unfold progressValue
  split
  · refine min_le_min le_rfl (div_le_div_of_nonneg_right ?_ ?_)
    · exact_mod_cast h
    · exact Nat.cast_nonneg fB
  · exact le_refl 0

theorem progressValue_of_zero (b : Nat) : progressValue 0 b = 0 := by
  unfold progressValue
  simp

theorem progress_fold_inv (fB : Nat) (sizes : List Nat) :
    ∀ (b lu : Nat) (acc : List ℚ),
    acc.Chain' (· ≤ ·) →
    (∀ x ∈ acc, 0 ≤ x ∧ x ≤ progressValue fB b) →
    (List.foldl (progStep fB) (b, lu, acc) sizes).2.2.Chain' (· ≤ ·)
    ∧ (∀ x ∈ (List.foldl (progStep fB) (b, lu, acc) sizes).2.2,
        0 ≤ x ∧ x ≤ progressValue fB (List.foldl (progStep fB) (b, lu, acc) sizes).1) := by
  induction sizes with
  | nil => intro b lu acc hc hb; exact ⟨hc, hb⟩
  | cons sz sizes ih =>
      intro b lu acc hc hb
      have hmono := progressValue_mono fB (show b ≤ b + sz + 1 by omega)
      by_cases hpub : 4096 ≤ b + sz + 1 - lu
      · have hstep : progStep fB (b, lu, acc) sz =
            (b + sz + 1, b + sz + 1, acc ++ [progressValue fB (b + sz + 1)]) := by
          simp [progStep, hpub]
        rw [List.foldl_cons, hstep]
        refine ih (b + sz + 1) (b + sz + 1) (acc ++ [progressValue fB (b + sz + 1)]) ?_ ?_
        · refine List.Chain'.append hc (List.chain'_singleton _) ?_
          intro x hx y hy
          rw [List.head?_cons, Option.mem_some_iff] at hy
          subst hy
          exact le_trans (hb x (List.mem_of_getLast?_eq_some hx)).2 hmono
        · intro x hx
          rcases List.mem_append.mp hx with h' | h'
          · exact ⟨(hb x h').1, le_trans (hb x h').2 hmono⟩
          · rw [List.mem_singleton] at h'
            subst h'
            exact ⟨progressValue_nonneg _ _, le_refl _⟩
      · have hstep : progStep fB (b, lu, acc) sz = (b + sz + 1, lu, acc) := by
          simp [progStep, hpub]
        rw [List.foldl_cons, hstep]
        refine ih (b + sz + 1) lu acc hc ?_
        intro x hx
        exact ⟨(hb x hx).1, le_trans (hb x hx).2 hmono⟩

/-! Characterization of the raw pools, and an indexing helper. -/

theorem temp_pos_foldl_eq (ls : List ObjLine) :
    ∀ st : ParseState,
      (List.foldl stepLine st ls).temp_pos = st.temp_pos ++ vLineVecs ls := by
  induction ls with
  | nil => intro st; simp [vLineVecs]
  | cons l ls ih =>
      intro st
      rw [List.foldl_cons, ih]
      cases l with
      | v c => simp [stepLine, vLineVecs, List.filterMap_cons]
      | vn c => simp [stepLine, vLineVecs, List.filterMap_cons]
      | f toks => simp [stepLine, vLineVecs, List.filterMap_cons]
      | other => simp [stepLine, vLineVecs, List.filterMap_cons]

theorem temp_norm_foldl_eq (ls : List ObjLine) :
    ∀ st : ParseState,
      (List.foldl stepLine st ls).temp_norm = st.temp_norm ++ vnLineVecs ls := by
  induction ls with
  | nil => intro st; simp [vnLineVecs]
  | cons l ls ih =>
      intro st
      rw [List.foldl_cons, ih]
      cases l with
      | v c => simp [stepLine, vnLineVecs, List.filterMap_cons]
      | vn c => simp [stepLine, vnLineVecs, List.filterMap_cons]
      | f toks => simp [stepLine, vnLineVecs, List.filterMap_cons]
      | other => simp [stepLine, vnLineVecs, List.filterMap_cons]

theorem getD_map_lt {α β : Type} (g : α → β) {l : List α} {i : Nat}
    (h : i < l.length) (d : α) (d' : β) :
    (l.map g).getD i d' = g (l.getD i d) := by
  rw [List.getD_eq_getElem?_getD, List.getD_eq_getElem?_getD,
    List.getElem?_eq_getElem (by simpa using h), List.getElem?_eq_getElem h,
    List.getElem_map]
  rfl

theorem getD_mem {α : Type} {l : List α} {i : Nat} (h : i < l.length) (d : α) :
    l.getD i d ∈ l := by
  rw [List.getD_eq_getElem?_getD, List.getElem?_eq_getElem h]
  exact List.getElem_mem h

theorem load_some_eq (f : ObjFile) (prev : MeshBuffers) :
    load_obj_simple_internal (some f) prev =
      (true,
       ⟨(weld (parseFile f).temp_pos (parseFile f).temp_norm (parseFile f).corners).out_positions,
        (weld (parseFile f).temp_pos (parseFile f).temp_norm (parseFile f).corners).out_normals,
        (weld (parseFile f).temp_pos (parseFile f).temp_norm (parseFile f).corners).out_indices⟩) :=
  rfl

/-! Claim theorems. -/

/-- C4: the index resolver maps every raw OBJ index as a function of
the raw value and the pool size at the time the face line is read: a
positive raw value resolves to raw - 1 and a negative raw value to
poolSize + raw; in particular a face reference of -1 with 5 positions
read resolves to position index 4. -/
theorem convert_index_resolution :
    (∀ (idx : Int) (array_size : Nat), 0 < idx →
        convert_index idx array_size = idx - 1)
  ∧ (∀ (idx : Int) (array_size : Nat), idx < 0 →
        convert_index idx array_size = (array_size : Int) + idx)
  ∧ convert_index (-1) 5 = 4 := by
  refine ⟨?_, ?_, by decide⟩
  · intro idx array_size h
    unfold convert_index
    rw [if_pos h]
  · intro idx array_size h
    unfold convert_index
    rw [if_neg (by omega), if_pos h]

/-- Witness for C4: concrete resolutions of a positive and a negative
raw index. -/
theorem convert_index_resolution_witness :
    convert_index 3 10 = 2 ∧ convert_index (-2) 7 = 5 := by
  constructor
  · have h := convert_index_resolution.1 3 10 (by decide)
    norm_num at h
    exact h
  · have h := convert_index_resolution.2.1 (-2) 7 (by decide)
    norm_num at h
    exact h

/-- C7: the parse fails exactly on an unopenable source, in which case
the caller's buffers are left untouched; every opened file parses
successfully, the empty file yielding empty output arrays. -/
theorem open_failure_only :
    (∀ prev : MeshBuffers, load_obj_simple_internal none prev = (false, prev))
  ∧ (∀ (f : ObjFile) (prev : MeshBuffers),
        (load_obj_simple_internal (some f) prev).1 = true)
  ∧ (∀ prev : MeshBuffers,
        (load_obj_simple_internal (some emptyFile) prev).2 = ⟨[], [], []⟩) :=
  ⟨fun _ => rfl, fun _ _ => rfl, fun _ => rfl⟩

/-- C2: a successful parse produces equally long position and normal
arrays, an index count divisible by 3, and index values all below the
position count. -/
theorem meshbuffers_invariants (f : ObjFile) (prev : MeshBuffers) :
    (load_obj_simple_internal (some f) prev).2.positions.length
        = (load_obj_simple_internal (some f) prev).2.normals.length
  ∧ (load_obj_simple_internal (some f) prev).2.indices.length % 3 = 0
  ∧ (∀ i ∈ (load_obj_simple_internal (some f) prev).2.indices,
        i < (load_obj_simple_internal (some f) prev).2.positions.length) := by
  rw [load_some_eq]
  rcases weld_spec (parseFile f).temp_pos (parseFile f).temp_norm (parseFile f).corners
    with ⟨hP, hN, hI⟩
  refine ⟨?_, ?_, ?_⟩
  · rw [hP, hN, List.length_map, List.length_map]
  · rw [hI, List.length_map]
    have h := corners_length_foldl (fileLines f) ⟨[], [], []⟩
    have hc : (parseFile f).corners.length = 3 * totalTris (fileLines f) := by
      simpa [parseFile, parseLines] using h
    rw [hc]
    omega
  · intro i hi
    rw [hI] at hi
    rcases List.mem_map.mp hi with ⟨k, hk, hik⟩
    have hkdk : k ∈ distinctCorners (parseFile f).corners := by
      rw [distinctCorners, mem_foldl_dkInsert]
      exact Or.inr hk
    rw [hP, List.length_map, ← hik]
    exact posIn_lt_length hkdk

/-- Witness for C2: index 2 occurs in the unit-square output and is
below its position count. -/
theorem meshbuffers_invariants_witness :
    2 ∈ (load_obj_simple_internal (some squareFile) prevSample).2.indices
  ∧ 2 < (load_obj_simple_internal (some squareFile) prevSample).2.positions.length :=
  ⟨by decide, (meshbuffers_invariants squareFile prevSample).2.2 2 (by decide)⟩

/-- C1: the welder identifies corners by their resolved (position,
normal) index pair: corners with equal pairs receive equal output
indices, the output holds exactly one vertex per distinct pair of the
corner stream, and the index count is 3 times the emitted triangle
count. -/
theorem weld_dedup (f : ObjFile) (prev : MeshBuffers) :
    (∀ i j : Nat, i < (parseFile f).corners.length →
        j < (parseFile f).corners.length →
        (parseFile f).corners.getD i (0, 0) = (parseFile f).corners.getD j (0, 0) →
        (load_obj_simple_internal (some f) prev).2.indices.getD i 0
          = (load_obj_simple_internal (some f) prev).2.indices.getD j 0)
  ∧ (load_obj_simple_internal (some f) prev).2.positions.length
      = (parseFile f).corners.toFinset.card
  ∧ (load_obj_simple_internal (some f) prev).2.indices.length
      = 3 * totalTris (fileLines f) := by
  rw [load_some_eq]
  rcases weld_spec (parseFile f).temp_pos (parseFile f).temp_norm (parseFile f).corners
    with ⟨hP, _, hI⟩
  refine ⟨?_, ?_, ?_⟩
  · intro i j hi hj hij
    rw [hI, getD_map_lt _ hi (0, 0), getD_map_lt _ hj (0, 0), hij]
  · have hnd : (distinctCorners (parseFile f).corners).Nodup :=
      nodup_foldl_dkInsert _ List.nodup_nil
    have hfs : (distinctCorners (parseFile f).corners).toFinset
        = (parseFile f).corners.toFinset := by
      ext k
      rw [List.mem_toFinset, List.mem_toFinset, distinctCorners, mem_foldl_dkInsert]
      simp
    rw [hP, List.length_map, ← List.toFinset_card_of_nodup hnd, hfs]
  · rw [hI, List.length_map]
    have h := corners_length_foldl (fileLines f) ⟨[], [], []⟩
    simpa [parseFile, parseLines] using h

/-- Witness for C1: in the unit-square output, corners 0 and 3 carry
the same pair and receive the same output index. -/
theorem weld_dedup_witness :
    (parseFile squareFile).corners.getD 0 (0, 0)
        = (parseFile squareFile).corners.getD 3 (0, 0)
  ∧ (load_obj_simple_internal (some squareFile) prevSample).2.indices.getD 0 0
      = (load_obj_simple_internal (some squareFile) prevSample).2.indices.getD 3 0 :=
  ⟨by decide,
   (weld_dedup squareFile prevSample).1 0 3 (by decide) (by decide) (by decide)⟩

/-- C3: a face whose reference list has fewer than 3 entries is
dropped (no corners emitted, no error possible); a face with N ≥ 3
references emits exactly N-2 fan triangles, the t-th consisting of the
references at positions 0, t+1 and t+2 of the list (i.e. [0, i-1, i]
for i = t+2); the spec's unit-square input yields 4 positions and
indices [0,1,2, 0,2,3]. -/
theorem fan_triangulation (refs : List (Int × Int)) :
    (refs.length < 3 → fanEmit refs = [])
  ∧ (3 ≤ refs.length →
        (fanEmit refs).length = 3 * (refs.length - 2)
      ∧ fanEmit refs = (List.range (refs.length - 2)).flatMap fun t =>
          [cornerOf (refs.getD 0 (-1, -1)),
           cornerOf (refs.getD (t + 1) (-1, -1)),
           cornerOf (refs.getD (t + 2) (-1, -1))])
  ∧ ((load_obj_simple_internal (some squareFile) prevSample).2.positions.length = 4
      ∧ (load_obj_simple_internal (some squareFile) prevSample).2.indices
          = [0, 1, 2, 0, 2, 3]) := by
  refine ⟨?_, ?_, by decide, by decide⟩
  · intro h
    unfold fanEmit
    rw [if_pos h]
  · intro h
    constructor
    · rw [length_fanEmit, if_neg (by omega)]
    · unfold fanEmit
      rw [if_neg (by omega)]
      have hn : (refs.length - 2) + 2 = refs.length := by omega
      have h1 : List.range' 0 2 ++ List.range' 2 (refs.length - 2)
          = List.range' 0 refs.length := by
        have := List.range'_append_1 0 2 (refs.length - 2)
        rw [hn] at this
        simpa using this
      have hdrop : (List.range refs.length).drop 2
          = (List.range (refs.length - 2)).map (2 + ·) := by
        rw [List.range_eq_range', ← h1,
          List.drop_left' (by rw [List.length_range']),
          List.range'_eq_map_range]
      rw [hdrop, List.flatMap_map]
      congr 1
      funext t
      rw [show 2 + t - 1 = t + 1 from by omega, show 2 + t = t + 2 from by omega]

/-- Witness for C3: a 1-entry reference list is dropped and a 4-entry
list emits 2 triangles of the expected shape. -/
theorem fan_triangulation_witness :
    fanEmit [((0 : Int), (0 : Int))] = []
  ∧ (fanEmit [((0 : Int), (0 : Int)), (1, 0), (2, 0), (3, 0)]).length = 3 * 2 :=
  ⟨(fan_triangulation [((0 : Int), (0 : Int))]).1 (by decide),
   ((fan_triangulation [((0 : Int), (0 : Int)), (1, 0), (2, 0), (3, 0)]).2.1
      (by decide)).1⟩

/-- C6: a corner whose resolved position index lies outside the
position pool receives position (0,0,0) in the output instead of
aborting, and the parse still returns success. -/
theorem oob_position_default (f : ObjFile) (prev : MeshBuffers) (i : Nat)
    (hi : i < (parseFile f).corners.length)
    (hoob : (parseFile f).temp_pos.length ≤ ((parseFile f).corners.getD i (0, 0)).1) :
    (load_obj_simple_internal (some f) prev).1 = true
  ∧ (load_obj_simple_internal (some f) prev).2.positions.getD
      ((load_obj_simple_internal (some f) prev).2.indices.getD i 0) ⟨0, 0, 0⟩
      = ⟨0, 0, 0⟩ := by
  rw [load_some_eq]
  rcases weld_spec (parseFile f).temp_pos (parseFile f).temp_norm (parseFile f).corners
    with ⟨hP, _, hI⟩
  refine ⟨rfl, ?_⟩
  have hkdk : (parseFile f).corners.getD i (0, 0)
      ∈ distinctCorners (parseFile f).corners := by
    rw [distinctCorners, mem_foldl_dkInsert]
    exact Or.inr (getD_mem hi _)
  rw [hI, getD_map_lt _ hi (0, 0), hP,
    getD_map_lt (posOf (parseFile f).temp_pos) (posIn_lt_length hkdk) (0, 0),
    getD_posIn hkdk]
  unfold posOf
  rw [if_neg (by omega)]

/-- Witness for C6: the spec's one-vertex file with a face referencing
position 5: corner 2 is out of range and its output position is the
zero vector, while the parse succeeds. -/
theorem oob_position_default_witness :
    (load_obj_simple_internal (some oneVertexFile) prevSample).1 = true
  ∧ (load_obj_simple_internal (some oneVertexFile) prevSample).2.positions.getD
      ((load_obj_simple_internal (some oneVertexFile) prevSample).2.indices.getD 2 0)
      ⟨0, 0, 0⟩ = ⟨0, 0, 0⟩ :=
  oob_position_default oneVertexFile prevSample 2 (by decide) (by decide)

/-- C5 counterexample: in `oneNormFile` every face token carries no
normal reference (`ni = 0`), yet because the file holds one `vn` line
the welder keys those corners to normal slot 0 and copies the pooled
normal (1,0,0), not the claimed default (0,0,1). -/
theorem normal_default_cex :
    ((fileLines oneNormFile).all fun l =>
        match l with
        | ObjLine.f toks => toks.all fun t => t.ni == 0
        | _ => true) = true
  ∧ (load_obj_simple_internal (some oneNormFile) prevSample).2.normals
      = [⟨1, 0, 0⟩, ⟨1, 0, 0⟩, ⟨1, 0, 0⟩]
  ∧ ¬ ((load_obj_simple_internal (some oneNormFile) prevSample).2.normals.getD 0
        ⟨0, 0, 1⟩ = ⟨0, 0, 1⟩) := by
  decide

/-- C5 amended: a corner lacking a normal reference is keyed to normal
pool slot 0, so it receives the default output normal (0,0,1) exactly
when the file contains no `vn` line; if the file holds `vn` lines such
a corner receives the first pooled normal instead.  Formally: when no
line of the file is a `vn` line, every output normal is (0,0,1). -/
theorem normal_default_amended (f : ObjFile) (prev : MeshBuffers)
    (hno : ∀ c, ObjLine.vn c ∉ fileLines f) :
    ∀ nrm ∈ (load_obj_simple_internal (some f) prev).2.normals, nrm = ⟨0, 0, 1⟩ := by
  rw [load_some_eq]
  rcases weld_spec (parseFile f).temp_pos (parseFile f).temp_norm (parseFile f).corners
    with ⟨_, hN, _⟩
  intro nrm hmem
  have htn : (parseFile f).temp_norm = [] := by
    have h := temp_norm_foldl_no_vn (fileLines f) ⟨[], [], []⟩ hno
    simpa [parseFile, parseLines] using h
  rw [hN, htn] at hmem
  rcases List.mem_map.mp hmem with ⟨k, _, hk⟩
  rw [← hk]
  unfold normOf
  simp

/-- Witness for C5 amended: the square file has no vn lines and its
first output normal is (0,0,1). -/
theorem normal_default_amended_witness :
    (load_obj_simple_internal (some squareFile) prevSample).2.normals.getD 0 ⟨9, 9, 9⟩
      = ⟨0, 0, 1⟩ :=
  normal_default_amended squareFile prevSample
    (fun c hc => by simp [fileLines, squareFile] at hc)
    _ (by decide)

/-- C9: a `v` (or `vn`) line carrying fewer than 3 numeric fields
stores a vector whose missing components default to zero, and the scan
continues over the rest of the file: the pool still receives every
later line's vector after the padded one. -/
theorem short_line_padding (pre post : List ObjLine) (coords : List ℚ)
    (h : coords.length < 3) :
    (parseLines (pre ++ ObjLine.v coords :: post)).temp_pos
      = (parseLines pre).temp_pos
        ++ Vec3.mk (coords.getD 0 0) (coords.getD 1 0) 0 :: vLineVecs post
  ∧ (parseLines (pre ++ ObjLine.vn coords :: post)).temp_norm
      = (parseLines pre).temp_norm
        ++ Vec3.mk (coords.getD 0 0) (coords.getD 1 0) 0 :: vnLineVecs post := by
  have hz : coords.getD 2 0 = 0 := by
    rw [List.getD_eq_getElem?_getD, List.getElem?_eq_none (by omega)]
    rfl
  have hv : readVec3 coords = ⟨coords.getD 0 0, coords.getD 1 0, 0⟩ := by
    unfold readVec3
    rw [hz]
  constructor
  · show (List.foldl stepLine ⟨[], [], []⟩ (pre ++ ObjLine.v coords :: post)).temp_pos = _
    rw [List.foldl_append, List.foldl_cons, temp_pos_foldl_eq]
    simp [stepLine, hv, parseLines]
  · show (List.foldl stepLine ⟨[], [], []⟩ (pre ++ ObjLine.vn coords :: post)).temp_norm = _
    rw [List.foldl_append, List.foldl_cons, temp_norm_foldl_eq]
    simp [stepLine, hv, parseLines]

/-- Witness for C9: a `v` line with the single field 7 stores (7,0,0)
and the following `v` line is still processed. -/
theorem short_line_padding_witness :
    (parseLines [ObjLine.other, ObjLine.v [7], ObjLine.v [5, 5, 5]]).temp_pos
      = (parseLines [ObjLine.other]).temp_pos
        ++ Vec3.mk 7 0 0 :: vLineVecs [ObjLine.v [5, 5, 5]] :=
  (short_line_padding [ObjLine.other] [ObjLine.v [5, 5, 5]] [7] (by decide)).1

/-- C8: within one parse the published progress values are
monotonically non-decreasing, each lies in [0,1], the final published
value on success is exactly 1, and when the total file size is zero
every value before the final one is 0. -/
theorem progress_monotone_bounds (f : ObjFile) :
    (progressPublishes f).Chain' (· ≤ ·)
  ∧ (∀ p ∈ progressPublishes f, 0 ≤ p ∧ p ≤ 1)
  ∧ (progressPublishes f).getLast? = some 1
  ∧ (f.fileBytes = 0 → ∀ p ∈ (progressPublishes f).dropLast, p = 0) := by
  have hinv := progress_fold_inv f.fileBytes (f.lines.map Prod.snd) 0 0 [0]
    (List.chain'_singleton 0)
    (by
      intro x hx
      rw [List.mem_singleton] at hx
      subst hx
      exact ⟨le_refl 0, progressValue_nonneg _ _⟩)
  have hps : progressPublishes f =
      (List.foldl (progStep f.fileBytes) (0, 0, [0]) (f.lines.map Prod.snd)).2.2 ++ [1] :=
    rfl
  refine ⟨?_, ?_, ?_, ?_⟩
  · rw [hps]
    refine List.Chain'.append hinv.1 (List.chain'_singleton 1) ?_
    intro x hx y hy
    rw [List.head?_cons, Option.mem_some_iff] at hy
    subst hy
    exact le_trans (hinv.2 x (List.mem_of_getLast?_eq_some hx)).2
      (progressValue_le_one _ _)
  · rw [hps]
    intro p hp
    rcases List.mem_append.mp hp with h' | h'
    · exact ⟨(hinv.2 p h').1, le_trans (hinv.2 p h').2 (progressValue_le_one _ _)⟩
    · rw [List.mem_singleton] at h'
      subst h'
      exact ⟨zero_le_one, le_refl 1⟩
  · rw [hps, List.getLast?_concat]
  · intro hfb p hp
    rw [hps, List.dropLast_concat] at hp
    have hb := hinv.2 p hp
    rw [hfb, progressValue_of_zero] at hb
    exact le_antisymm hb.2 hb.1

/-- Witness for C8: the empty file (unknown size 0) publishes [0, 1]:
bounds, final value 1 and all-zero prefix hold at this input. -/
theorem progress_monotone_bounds_witness :
    ((0 : ℚ) ≤ 0 ∧ (0 : ℚ) ≤ 1)
  ∧ (progressPublishes emptyFile).getLast? = some 1
  ∧ (0 : ℚ) = 0 :=
  ⟨(progress_monotone_bounds emptyFile).2.1 0 (by decide),
   (progress_monotone_bounds emptyFile).2.2.1,
   (progress_monotone_bounds emptyFile).2.2.2 rfl 0 (by decide)⟩

/-- C10: after a background import fails, the worker has set only the
failed flag, so every subsequent `maybeFinishImport` call returns
false and leaves the published mesh state — buffers, flags and
progress — unchanged. -/
theorem failed_import_preserves_state (st : LoaderState) :
    maybeFinishImport (importWorkerFinish none (requestImportAsync st))
      = (false, importWorkerFinish none (requestImportAsync st))
  ∧ (importWorkerFinish none (requestImportAsync st)).positions_ptr = st.positions_ptr
  ∧ (importWorkerFinish none (requestImportAsync st)).normals_ptr = st.normals_ptr
  ∧ (importWorkerFinish none (requestImportAsync st)).indices_ptr = st.indices_ptr
  ∧ (importWorkerFinish none (requestImportAsync st)).modelReady = st.modelReady
  ∧ (importWorkerFinish none (requestImportAsync st)).modelLoadFailed = st.modelLoadFailed
  ∧ (importWorkerFinish none (requestImportAsync st)).loadProgress = st.loadProgress
  ∧ ∀ n : Nat, pollImport n (importWorkerFinish none (requestImportAsync st))
      = importWorkerFinish none (requestImportAsync st) := by
  have hm : maybeFinishImport (importWorkerFinish none (requestImportAsync st))
      = (false, importWorkerFinish none (requestImportAsync st)) := rfl
  refine ⟨hm, rfl, rfl, rfl, rfl, rfl, rfl, ?_⟩
  intro n
  induction n with
  | zero => rfl
  | succ m ih =>
      show pollImport m
          (maybeFinishImport (importWorkerFinish none (requestImportAsync st))).2
        = importWorkerFinish none (requestImportAsync st)
      rw [hm]
      exact ih

end Splender
